import Mathlib

/-
  Verification of the golf-AI-analytics pipeline specification against the
  source in src/.  Strings are modelled as lists of characters; external
  collaborators (tiktoken, the OpenAI client, pandas, python-pptx, the file
  system) are modelled as explicit parameters or environment records, with
  the repository's own control flow translated faithfully.
-/

/-- Python strings, modelled as lists of characters. -/
abbrev Str := List Char

/-- Whitespace test used by Python's `str.strip` and `str.split()`. -/
def ws (c : Char) : Bool := c.isWhitespace

/-- Python `text.split('\n')`: split on every newline, keeping empty pieces;
the result is always nonempty. -/
def pySplitLines : Str → List Str
  | [] => [[]]
  | c :: rest =>
    if c = '\n' then [] :: pySplitLines rest
    else (c :: (pySplitLines rest).headI) :: (pySplitLines rest).tail

/-- Join a list of strings with newline separators (inverse of `pySplitLines`). -/
def joinNL : List Str → Str
  | [] => []
  | [c] => c
  | c :: cs => c ++ '\n' :: joinNL cs

/-- Drop trailing whitespace. -/
def stripEnd (s : Str) : Str := (s.reverse.dropWhile ws).reverse

/-- Python `s.strip()`: drop leading and trailing whitespace. -/
def pyStrip (s : Str) : Str := stripEnd (s.dropWhile ws)

/-- Worker for Python `s.split()`: `cur` holds the reversed current word. -/
def splitWsAux : Str → Str → List Str
  | [], cur => if cur = [] then [] else [cur.reverse]
  | c :: rest, cur =>
    if ws c then
      if cur = [] then splitWsAux rest [] else cur.reverse :: splitWsAux rest []
    else splitWsAux rest (c :: cur)

/-- Python `s.split()` with no argument: words separated by whitespace runs,
empty pieces dropped. -/
def pySplitWs (s : Str) : List Str := splitWsAux s []

/-- Python `s.lower()`. -/
def pyLower (s : Str) : Str := s.map Char.toLower

/-- Stub tokenizer counting characters (spec section 8 sanctions a stub
tokenizer for properties of `chunk_content`; `get_token_count` itself calls
tiktoken, an external dependency). -/
def charTokens (s : Str) : Nat := s.length

/-- Stub tokenizer counting whitespace-separated words (the other stub named
by spec section 8). -/
def wordTokens (s : Str) : Nat := (pySplitWs s).length

/-- State of the chunking loop in `chunk_content`
(src/document_processor.py lines 41-43): the emitted chunks, the running
`current_chunk`, and the running `current_tokens` tally. -/
structure ChunkState where
  chunks : List Str
  current : Str
  tokens : Nat
deriving DecidableEq, Repr

/-- The word-level fallback loop of `chunk_content`
(src/document_processor.py lines 53-62): accumulate words into `temp_chunk`
while `get_token_count(temp_chunk + " " + word) < max_tokens`, else flush
`temp_chunk.strip()` and restart from the word.  Returns the extended chunk
list and the final `temp_chunk`. -/
def wordSplitLoop (tc : Str → Nat) (mx : Nat) : List Str → Str → List Str → List Str × Str
  | [], temp, acc => (acc, temp)
  | w :: rest, temp, acc =>
    if tc (temp ++ ' ' :: w) < mx then wordSplitLoop tc mx rest (temp ++ ' ' :: w) acc
    else wordSplitLoop tc mx rest w (acc ++ [pyStrip temp])

/-- One iteration of the paragraph loop of `chunk_content`
(src/document_processor.py lines 48-72). -/
def procPara (tc : Str → Nat) (mx : Nat) (st : ChunkState) (p : Str) : ChunkState :=
  let pt := tc p
  if mx < pt then
    let r := wordSplitLoop tc mx (pySplitWs p) [] st.chunks
    ⟨if r.2 = [] then r.1 else r.1 ++ [pyStrip r.2], st.current, st.tokens⟩
  else if st.tokens + pt < mx then
    ⟨st.chunks, st.current ++ '\n' :: p, st.tokens + pt⟩
  else
    ⟨st.chunks ++ [pyStrip st.current], p, pt⟩

/-- `chunk_content(text, max_tokens)` from src/document_processor.py lines
39-77, parameterised by the tokenizer `tc` standing for `get_token_count`
(tiktoken is an external dependency; the source default is
`max_tokens=14000`). -/
def chunk_content (tc : Str → Nat) (text : Str) (mx : Nat) : List Str :=
  let st := (pySplitLines text).foldl (procPara tc mx) ⟨[], [], 0⟩
  if st.current = [] then st.chunks else st.chunks ++ [pyStrip st.current]

/-- Label character class `[^:\n]` of the metric regex in
src/ppt_generator.py line 19. -/
def labChar (c : Char) : Bool := c != ':' && c != '\n'

/-- One attempted match of the regex `([^:\n]+):\s*(\d+(?:\.\d+)?)` at the
head of `s` (src/ppt_generator.py line 19).  Since `[^:\n]` excludes `:`,
greedy matching with backtracking reduces to: maximal nonempty run of
non-colon non-newline characters, a literal colon, a maximal whitespace run,
a nonempty digit run, and optionally a dot followed by a nonempty digit run.
Returns the two capture groups and the remaining input. -/
def matchKV (s : Str) : Option ((Str × Str) × Str) :=
  if s.takeWhile labChar = [] then none
  else
    match s.dropWhile labChar with
    | ':' :: r2 =>
      if (r2.dropWhile ws).takeWhile Char.isDigit = [] then none
      else
        match (r2.dropWhile ws).dropWhile Char.isDigit with
        | '.' :: r5 =>
          if r5.takeWhile Char.isDigit = [] then
            some ((s.takeWhile labChar, (r2.dropWhile ws).takeWhile Char.isDigit), '.' :: r5)
          else
            some ((s.takeWhile labChar,
              (r2.dropWhile ws).takeWhile Char.isDigit ++ '.' :: r5.takeWhile Char.isDigit),
              r5.dropWhile Char.isDigit)
        | r4 => some ((s.takeWhile labChar, (r2.dropWhile ws).takeWhile Char.isDigit), r4)
    | _ => none

theorem length_dropWhile_le (p : Char → Bool) (l : Str) :
    (l.dropWhile p).length ≤ l.length := by
  induction l with
  | nil => simp [List.dropWhile]
  | cons c rest ih =>
    rw [List.dropWhile_cons]
    split
    · exact Nat.le_trans ih (Nat.le_succ _)
    · exact Nat.le_refl _

theorem length_dropWhile_lt (p : Char → Bool) (l : Str)
    (h : l.takeWhile p ≠ []) : (l.dropWhile p).length < l.length := by
  cases l with
  | nil => simp [List.takeWhile] at h
  | cons c rest =>
    by_cases hp : p c
    · rw [List.dropWhile_cons, if_pos hp, List.length_cons]
      exact Nat.lt_succ_of_le (length_dropWhile_le p rest)
    · rw [List.takeWhile_cons, if_neg hp] at h
      exact absurd rfl h

theorem matchKV_shrink {s r : Str} {pr : Str × Str}
    (h : matchKV s = some (pr, r)) : r.length < s.length := by
  unfold matchKV at h
  by_cases hlab : s.takeWhile labChar = []
  · rw [if_pos hlab] at h
    exact absurd h (by simp)
  · rw [if_neg hlab] at h
    have hdrop : (s.dropWhile labChar).length < s.length :=
      length_dropWhile_lt labChar s hlab
    split at h
    · rename_i r2 heq
      by_cases hdig : ((r2.dropWhile ws).takeWhile Char.isDigit) = []
      · rw [if_pos hdig] at h
        exact absurd h (by simp)
      · rw [if_neg hdig] at h
        have hr2 : r2.length < s.length := by
          have h1 : (':' :: r2).length ≤ s.length := by rw [← heq]; exact hdrop.le
          simp only [List.length_cons] at h1
          omega
        have hr3 : (r2.dropWhile ws).length ≤ r2.length := length_dropWhile_le ws r2
        have hr4lt : ((r2.dropWhile ws).dropWhile Char.isDigit).length <
            (r2.dropWhile ws).length := length_dropWhile_lt _ _ hdig
        have hr4s : ((r2.dropWhile ws).dropWhile Char.isDigit).length < s.length := by omega
        split at h
        · rename_i r5 heq5
          have hr5 : r5.length < s.length := by
            have h1 : ('.' :: r5).length ≤ s.length := by rw [← heq5]; exact hr4s.le
            simp only [List.length_cons] at h1
            omega
          by_cases hfrac : (r5.takeWhile Char.isDigit) = []
          · rw [if_pos hfrac] at h
            simp only [Option.some.injEq, Prod.mk.injEq] at h
            obtain ⟨-, hr⟩ := h
            subst hr
            rw [← heq5]
            exact hr4s
          · rw [if_neg hfrac] at h
            simp only [Option.some.injEq, Prod.mk.injEq] at h
            obtain ⟨-, hr⟩ := h
            subst hr
            exact Nat.lt_of_le_of_lt (length_dropWhile_le _ _) hr5
        · rename_i hne
          simp only [Option.some.injEq, Prod.mk.injEq] at h
          obtain ⟨-, hr⟩ := h
          subst hr
          exact hr4s
    · exact absurd h (by simp)

/-- `re.findall` of the metric regex over the whole text: try a match at
every position left to right, collecting capture-group pairs and resuming
after each match. -/
def findallKV (s : Str) : List (Str × Str) :=
  match s with
  | [] => []
  | c :: rest =>
    match h : matchKV (c :: rest) with
    | some (pr, r) => pr :: findallKV r
    | none => findallKV rest
termination_by s.length
decreasing_by
  · exact matchKV_shrink h
  · simp

/-- Decimal digit run to a natural number. -/
def digitsToNat (s : Str) : Nat :=
  s.foldl (fun n c => 10 * n + (c.toNat - '0'.toNat)) 0

/-- Python `float(v)` on a string matched by `\d+(?:\.\d+)?`, modelled
exactly as a rational (the decimal values exercised here are small and
exactly representable, so the binary-float rounding of CPython is not
observable in any claim). -/
def pyFloat (s : Str) : ℚ :=
  match s.dropWhile (fun c => c != '.') with
  | [] => (digitsToNat s : ℚ)
  | _ :: frac =>
    mkRat (digitsToNat (s.takeWhile (fun c => c != '.')) * 10 ^ frac.length +
      digitsToNat frac) (10 ^ frac.length)

/-- Python `value.strip('%')`: drop leading and trailing percent signs. -/
def stripPct (s : Str) : Str :=
  ((s.dropWhile (fun c => c == '%')).reverse.dropWhile (fun c => c == '%')).reverse

/-- The `metrics` dictionary built by `extract_metrics`
(src/ppt_generator.py lines 11-15): three parallel lists. -/
structure Metrics where
  values : List ℚ
  labels : List Str
  percentages : List Bool
deriving DecidableEq, Repr

/-- `extract_metrics(text)` from src/ppt_generator.py lines 9-31: run the
regex over the text, then for each `(label, value)` pair append
`'%' in label or '%' in value` to `percentages`, `float(value.strip('%'))`
to `values` and `label.strip()` to `labels`.  The Lean model is total, so
the `except` branch of the source (returning three empty lists) is
unreachable. -/
def extract_metrics (text : Str) : Metrics :=
  { values := (findallKV text).map fun pr => pyFloat (stripPct pr.2)
  , labels := (findallKV text).map fun pr => pyStrip pr.1
  , percentages := (findallKV text).map fun pr => pr.1.contains '%' || pr.2.contains '%' }

/-- Index of the last occurrence of `c` in `s` (Python `s.rfind(c)`),
`none` when absent. -/
def rfindIdx (s : Str) (c : Char) : Option Nat :=
  (s.reverse.findIdx? (fun d => d == c)).map (fun i => s.length - 1 - i)

/-- The extension component of `os.path.splitext(p)` (posix rules): the
suffix from the last dot, provided that dot lies after the last slash and
the basename has a non-dot character before it; otherwise the empty
string. -/
def pySplitextExt (p : Str) : Str :=
  match rfindIdx p '.' with
  | none => []
  | some dotIndex =>
    let sepBound := match rfindIdx p '/' with | none => 0 | some i => i + 1
    if sepBound ≤ dotIndex ∧ ((p.drop sepBound).take (dotIndex - sepBound)).any (fun c => c != '.')
    then p.drop dotIndex else []

/-- Network operations of the OpenAI client observed by the pipeline:
`client.models.list()` (issued by `validate_api_key`) and
`client.chat.completions.create` (issued by the analysis calls). -/
inductive ApiCall where
  | modelsList
  | chatCompletion
deriving DecidableEq, Repr

/-- A pandas dataframe, abstracted to its column names (all the pipeline's
own control flow inspects beyond handing it to external calls). -/
structure Table where
  columns : List Str
deriving DecidableEq, Repr

/-- Environment abstracting the external collaborators of
`process_document`: whether `client.models.list()` succeeds, the outcome of
`pd.read_excel`/`pd.read_csv` (`.error` models a raised exception), the
outcome of the `chat.completions.create` call, and the outcome of the file
re-read inside `get_players_list`. -/
structure Env where
  keyValid : Bool
  readTable : Except Str Table
  chat : Except Str Str
  playersRead : Except Str (List Str)

/-- `validate_api_key` (src/document_processor.py lines 12-19): issues one
`models.list()` network call and reports whether it succeeded. -/
def validate_api_key (env : Env) : Bool × List ApiCall :=
  (env.keyValid, [ApiCall.modelsList])

def errAnalyzePlayer : Str :=
  ['E', 'r', 'r', 'o', 'r', ' ', 'a', 'n', 'a', 'l', 'y', 'z', 'i', 'n', 'g', ' ',
   'p', 'l', 'a', 'y', 'e', 'r', ' ', 'p', 'e', 'r', 'f', 'o', 'r', 'm', 'a', 'n', 'c', 'e', ':', ' ']

/-- Join with `", "` (Python `', '.join(...)`). -/
def joinCommaSp : List Str → Str
  | [] => []
  | [x] => x
  | x :: xs => x ++ ',' :: ' ' :: joinCommaSp xs

/-- `analyze_player_performance` (src/document_processor.py lines 158-311):
one `chat.completions.create` call; on success the response text is
returned, on any exception the inline error string
`"Error analyzing player performance: ...\nDataframe columns: ..."`. -/
def analyze_player_performance (env : Env) (df : Table) : Str × List ApiCall :=
  (match env.chat with
   | .ok t => t
   | .error e => errAnalyzePlayer ++ e ++ '\n' ::
       (['D', 'a', 't', 'a', 'f', 'r', 'a', 'm', 'e', ' ',
         'c', 'o', 'l', 'u', 'm', 'n', 's', ':', ' '] ++ joinCommaSp df.columns),
   [ApiCall.chatCompletion])

/-- `get_players_list` (src/document_processor.py lines 123-138): re-reads
the file and extracts the unique player names (pandas work abstracted as
`env.playersRead`); any exception is caught and an empty list returned.  No
network call is issued. -/
def get_players_list (env : Env) : List Str × List ApiCall :=
  (match env.playersRead with | .ok ps => ps | .error _ => [], [])

/-- The value returned by `process_document`, one constructor per `return`
site (src/document_processor.py lines 314-342): the invalid-key message,
`f"Unsupported file format: {ext}"`, the analysis text, the players list,
and `f"Error processing file: {e}"`. -/
inductive PDOutcome where
  | invalidKey
  | unsupported (ext : Str)
  | playerAnalysis (r : Str)
  | playersList (ps : List Str)
  | fileError (msg : Str)
deriving DecidableEq, Repr

def dotXlsx : Str := ['.', 'x', 'l', 's', 'x']
def dotCsv : Str := ['.', 'c', 's', 'v']
def dotDocx : Str := ['.', 'd', 'o', 'c', 'x']

/-- `process_document(file_path, selected_player)` from
src/document_processor.py lines 314-342, together with the ordered list of
network calls it issues.  The key is validated first (one `models.list()`
call); then the lowercased extension is tested against `['.xlsx', '.csv']`;
everything else returns the unsupported-format outcome.  `if
selected_player:` follows Python truthiness (`None` and the empty string
both fall to the players-list branch).  The outer `except` is unreachable
in this total model. -/
def process_document (env : Env) (file_path : Str) (selected_player : Option Str) :
    PDOutcome × List ApiCall :=
  let v := validate_api_key env
  if !v.1 then (.invalidKey, v.2)
  else
    let file_extension := pyLower (pySplitextExt file_path)
    if file_extension = dotXlsx ∨ file_extension = dotCsv then
      match env.readTable with
      | .error e => (.fileError e, v.2)
      | .ok df =>
        match selected_player with
        | some p =>
          if p ≠ [] then
            let r := analyze_player_performance env df
            (.playerAnalysis r.1, v.2 ++ r.2)
          else
            let ps := get_players_list env
            (.playersList ps.1, v.2 ++ ps.2)
        | none =>
          let ps := get_players_list env
          (.playersList ps.1, v.2 ++ ps.2)
    else (.unsupported file_extension, v.2)

/-- The text-generation service behind `client.chat.completions.create`:
one blocking call taking the user content; `.error` models a raised
`OpenAIError`. -/
structure LLM where
  respond : Str → Except Str Str

def errAnalyzingChunk : Str :=
  ['E', 'r', 'r', 'o', 'r', ' ', 'a', 'n', 'a', 'l', 'y', 'z', 'i', 'n', 'g', ' ',
   'c', 'h', 'u', 'n', 'k', ':', ' ']

/-- `analyze_chunk` (src/document_processor.py lines 80-120): one model call
on the chunk (under the fixed business-analysis system prompt, which is part
of the external call and not modelled); an `OpenAIError` is caught and
converted to the inline string `"Error analyzing chunk: ..."`. -/
def analyze_chunk (llm : LLM) (chunk : Str) : Str :=
  match llm.respond chunk with
  | .ok t => t
  | .error e => errAnalyzingChunk ++ e

/-- Modelled from the spec: section markers used when concatenating
per-chunk results (spec section 4.3); the marker text itself is not fixed by
the spec. -/
def sectionHeader (i : Nat) : Str :=
  '\n' :: '\n' :: ['-', '-', '-', ' ', 'S', 'e', 'c', 't', 'i', 'o', 'n', ' '] ++
    Nat.toDigits 10 (i + 1) ++ (' ' :: ['-', '-', '-', '\n', '\n'])

/-- Modelled from the spec: concatenation of per-chunk results with section
markers (spec section 4.3). -/
def sectionJoin : Nat → List Str → Str
  | _, [] => []
  | i, r :: rs => sectionHeader i ++ r ++ sectionJoin (i + 1) rs

/-- Modelled from the spec: the fixed instruction for the synthesis pass
(spec section 4.3 asks the service for a coherent synthesis). -/
def synthesisPrompt : Str :=
  ['S', 'y', 'n', 't', 'h', 'e', 's', 'i', 'z', 'e', ' ', 't', 'h', 'e', ' ',
   's', 'e', 'c', 't', 'i', 'o', 'n', ' ', 'a', 'n', 'a', 'l', 'y', 's', 'e', 's', ':', '\n']

/-- Modelled from the spec: the multi-chunk orchestration of spec section
4.3 — map `analyze_chunk` over the chunks; when more than one chunk exists,
concatenate the per-chunk results with section markers and issue one more
model call asking for a synthesis, falling back to the concatenation itself
if that call fails.  This composition is absent from src/
(`chunk_content` and `analyze_chunk` have no callers there), so it is
modelled from the spec's words.  Returns the analysis text and the number
of model calls issued. -/
def analyze_document (llm : LLM) (chunks : List Str) : Str × Nat :=
  let results := chunks.map (analyze_chunk llm)
  if 1 < chunks.length then
    match llm.respond (synthesisPrompt ++ sectionJoin 0 results) with
    | .ok t => (t, chunks.length + 1)
    | .error _ => (sectionJoin 0 results, chunks.length + 1)
  else (joinNL results, chunks.length)

/-- Python `analysis.split('\n\n')`: split on each non-overlapping
occurrence of two consecutive newlines, scanning left to right. -/
def splitOn2NL : Str → List Str
  | '\n' :: '\n' :: rest => [] :: splitOn2NL rest
  | c :: rest =>
    match splitOn2NL rest with
    | l :: ls => (c :: l) :: ls
    | [] => [[c]]
  | [] => [[]]

/-- The deck-building steps of `create_presentation` delegated to
python-pptx (title slide, per-section content slides, chart slides, saving
to a temporary file); each field returns `.ok` or models a raised
exception. -/
structure RenderEnv where
  renderSections : List Str → Except Str Unit
  renderCharts : Metrics → Except Str Unit
  savePpt : Except Str Str

def errCreatingPresentation : Str :=
  ['E', 'r', 'r', 'o', 'r', ' ', 'c', 'r', 'e', 'a', 't', 'i', 'n', 'g', ' ',
   'p', 'r', 'e', 's', 'e', 'n', 't', 'a', 't', 'i', 'o', 'n', ':', ' ']

/-- The body of `create_presentation` (src/ppt_generator.py lines 52-117):
build the title slide and one content slide per `'\n\n'`-separated section,
extract metrics and add chart slides when any metric was found, then save
the deck to a temporary path. -/
def renderBody (env : RenderEnv) (analysis : Str) : Except Str Str := do
  let _ ← env.renderSections (splitOn2NL analysis)
  let m := extract_metrics analysis
  let _ ← if m.values ≠ [] then env.renderCharts m else .ok ()
  env.savePpt

/-- `create_presentation(analysis)` from src/ppt_generator.py lines 50-120:
the whole body runs inside `try`; on success the temporary file path is
returned, and any exception is caught and re-raised as
`Exception(f"Error creating presentation: {e}")` — modelled as `.error`
with the prefixed message (so `.error` means an exception escaping to the
caller, not a returned value). -/
def create_presentation (env : RenderEnv) (analysis : Str) : Except Str Str :=
  match renderBody env analysis with
  | .ok path => .ok path
  | .error e => .error (errCreatingPresentation ++ e)

/-- The line `"Growth Rate: 25%"` from spec section 8. -/
def growthRateLine : Str :=
  ['G', 'r', 'o', 'w', 't', 'h', ' ', 'R', 'a', 't', 'e', ':', ' ', '2', '5', '%']

/-- The line `"Label: 42"` from spec section 8. -/
def labelLine : Str := ['L', 'a', 'b', 'e', 'l', ':', ' ', '4', '2']

/-- A fully healthy environment (valid key, readable file, answering
model). -/
def envOk : Env := ⟨true, .ok ⟨[]⟩, .ok ['o', 'k'], .ok []⟩

def pathTxt : Str := ['d', 'a', 't', 'a', '.', 't', 'x', 't']

def pathDocx : Str := ['r', 'e', 'p', 'o', 'r', 't', '.', 'd', 'o', 'c', 'x']

def pathCsv : Str := ['d', '.', 'c', 's', 'v']

def pathMd : Str := ['n', 'o', 't', 'e', 's', '.', 'm', 'd']

/-- A service whose every call fails. -/
def llmFail : LLM := ⟨fun _ => .error ['b', 'o', 'o', 'm']⟩

/-- A renderer environment whose first deck-building step raises. -/
def renderEnvFail : RenderEnv :=
  ⟨fun _ => .error ['b', 'o', 'o', 'm'], fun _ => .ok (), .ok ['p']⟩

/-- The trimmed nonblank lines of a text, in order -- the observation under
which the amended lossless-chunking statement compares texts. -/
def contentLines (s : Str) : List Str :=
  ((pySplitLines s).map pyStrip).filter (fun l => !l.isEmpty)

/-- The trimmed nonblank lines held by a chunking state: those of the
already-emitted chunks followed by those of the running chunk. -/
def stContent (st : ChunkState) : List Str :=
  (st.chunks.map contentLines).flatten ++ contentLines st.current

theorem findallKV_nil : findallKV [] = [] := by
  unfold findallKV
  rfl

theorem findallKV_cons_some {c : Char} {rest r : Str} {pr : Str × Str}
    (h : matchKV (c :: rest) = some (pr, r)) :
    findallKV (c :: rest) = pr :: findallKV r := by
  rw [findallKV]
  split
  · rename_i pr' r' heq
    rw [h] at heq
    injection heq with heq2
    rw [Prod.mk.injEq] at heq2
    rw [heq2.1, heq2.2]
  · rename_i heq
    rw [h] at heq
    cases heq

theorem findallKV_cons_none {c : Char} {rest : Str}
    (h : matchKV (c :: rest) = none) :
    findallKV (c :: rest) = findallKV rest := by
  rw [findallKV]
  split
  · rename_i pr' r' heq
    rw [h] at heq
    cases heq
  · rfl

/-- C10: for every input string, `extract_metrics` terminates (it is a
total function of this model) and its three lists `values`, `labels` and
`percentages` have equal length — one entry per regex match, appended
together — so chart builders zipping them never misalign labels with
values. -/
theorem extract_metrics_parallel_lists (text : Str) :
    (extract_metrics text).values.length = (extract_metrics text).labels.length ∧
    (extract_metrics text).values.length = (extract_metrics text).percentages.length := by
  simp [extract_metrics]

/-- C2 (code-bug evidence): on the text `"Growth Rate: 25%"`,
`extract_metrics` yields one record with label `"Growth Rate"` and value
25.0, but `is_percentage = false` — the regex captures the value `25`
without the percent sign, so neither capture group contains `'%'` and the
claimed (and clearly intended) `is_percentage = true` is not produced. -/
theorem extract_metrics_growth_rate :
    extract_metrics growthRateLine =
      ⟨[25], [['G', 'r', 'o', 'w', 't', 'h', ' ', 'R', 'a', 't', 'e']], [false]⟩ := by
  have h1 : matchKV ('G' :: ['r', 'o', 'w', 't', 'h', ' ', 'R', 'a', 't', 'e', ':', ' ', '2', '5', '%']) =
      some ((['G', 'r', 'o', 'w', 't', 'h', ' ', 'R', 'a', 't', 'e'], ['2', '5']), ['%']) := rfl
  have h2 : matchKV ['%'] = none := rfl
  have hf : findallKV growthRateLine =
      [(['G', 'r', 'o', 'w', 't', 'h', ' ', 'R', 'a', 't', 'e'], ['2', '5'])] := by
    rw [show growthRateLine =
      'G' :: ['r', 'o', 'w', 't', 'h', ' ', 'R', 'a', 't', 'e', ':', ' ', '2', '5', '%'] from rfl]
    rw [findallKV_cons_some h1, findallKV_cons_none h2, findallKV_nil]
  rw [extract_metrics, hf]
  decide

/-- C5 (spec-modelled): when chunking produced more than one chunk, the
analyzer issues exactly one additional model call beyond the per-chunk
calls, and if that synthesis call fails the section-marked concatenation of
the per-chunk results is returned with no error surfaced to the caller. -/
theorem analyze_document_synthesis (llm : LLM) (chunks : List Str)
    (h : 1 < chunks.length) :
    (analyze_document llm chunks).2 = chunks.length + 1 ∧
    (∀ e, llm.respond (synthesisPrompt ++ sectionJoin 0 (chunks.map (analyze_chunk llm))) =
        .error e →
      (analyze_document llm chunks).1 = sectionJoin 0 (chunks.map (analyze_chunk llm))) := by
  constructor
  · unfold analyze_document
    rw [if_pos h]
    cases llm.respond (synthesisPrompt ++ sectionJoin 0 (chunks.map (analyze_chunk llm))) <;> rfl
  · intro e he
    unfold analyze_document
    rw [if_pos h, he]

/-- C5 witness. -/
theorem analyze_document_synthesis_witness :
    1 < ([['a'], ['b']] : List Str).length ∧
    ((analyze_document llmFail [['a'], ['b']]).2 = ([['a'], ['b']] : List Str).length + 1 ∧
     (∀ e, llmFail.respond (synthesisPrompt ++
         sectionJoin 0 (([['a'], ['b']] : List Str).map (analyze_chunk llmFail))) = .error e →
       (analyze_document llmFail [['a'], ['b']]).1 =
         sectionJoin 0 (([['a'], ['b']] : List Str).map (analyze_chunk llmFail)))) :=
  ⟨by decide, analyze_document_synthesis llmFail [['a'], ['b']] (by decide)⟩

/-- C9 counterexample: with a failing deck-building step,
`create_presentation` lets an exception escape to its caller (modelled as
`.error`), refuting the claim that the public rendering entry point never
lets a failure escape uncaught: the source's `except` clause re-raises
`Exception(f"Error creating presentation: {e}")`. -/
theorem create_presentation_raises :
    create_presentation renderEnvFail [] =
      .error (errCreatingPresentation ++ ['b', 'o', 'o', 'm']) := rfl

/-- C9 amended: every failure inside the rendering stage is caught at its
boundary, but then re-raised as a single wrapped exception whose message is
prefixed `"Error creating presentation: "`; no raw exception escapes
unwrapped, yet the entry point does raise rather than return an error
value. -/
theorem create_presentation_wraps (env : RenderEnv) (analysis e : Str)
    (h : create_presentation env analysis = .error e) :
    ∃ e0, renderBody env analysis = .error e0 ∧ e = errCreatingPresentation ++ e0 := by
  unfold create_presentation at h
  cases hb : renderBody env analysis with
  | ok p => rw [hb] at h; cases h
  | error e0 =>
    rw [hb] at h
    injection h with h2
    exact ⟨e0, rfl, h2.symm⟩

/-- C9 witness. -/
theorem create_presentation_wraps_witness :
    ∃ e0, renderBody renderEnvFail [] = .error e0 ∧
      errCreatingPresentation ++ ['b', 'o', 'o', 'm'] = errCreatingPresentation ++ e0 :=
  create_presentation_wraps renderEnvFail [] (errCreatingPresentation ++ ['b', 'o', 'o', 'm']) rfl

/-- C3 counterexample: for the unsupported path `"data.txt"` (healthy
environment) the entry point does return the unsupported-format outcome,
but its network trace is not empty — `validate_api_key` has already issued
the `models.list()` call — refuting "issues zero network calls". -/
theorem process_document_txt_calls :
    (process_document envOk pathTxt none).1 = .unsupported ['.', 't', 'x', 't'] ∧
    (process_document envOk pathTxt none).2 ≠ [] := by decide

/-- C3 amended: for every file whose lowercased extension is not one of
`.xlsx`, `.csv`, `.docx`, and a key that validates, the entry point returns
the unsupported-format outcome having issued exactly one network call —
the key-validation `models.list()` — and in particular no text-generation
call. -/
theorem process_document_unsupported_halts (env : Env) (path : Str) (player : Option Str)
    (hkey : env.keyValid = true)
    (hext : pyLower (pySplitextExt path) ∉ [dotXlsx, dotCsv, dotDocx]) :
    process_document env path player =
      (.unsupported (pyLower (pySplitextExt path)), [ApiCall.modelsList]) := by
  have hne : ¬(pyLower (pySplitextExt path) = dotXlsx ∨ pyLower (pySplitextExt path) = dotCsv) := by
    simp only [List.mem_cons, List.not_mem_nil, or_false] at hext
    tauto
  unfold process_document validate_api_key
  rw [hkey]
  simp only [Bool.not_true, Bool.false_eq_true, if_false]
  rw [if_neg hne]

/-- C3 witness. -/
theorem process_document_unsupported_halts_witness :
    envOk.keyValid = true ∧ pyLower (pySplitextExt pathMd) ∉ [dotXlsx, dotCsv, dotDocx] ∧
    process_document envOk pathMd none =
      (.unsupported (pyLower (pySplitextExt pathMd)), [ApiCall.modelsList]) :=
  ⟨rfl, by decide, process_document_unsupported_halts envOk pathMd none rfl (by decide)⟩

/-- C4 counterexample: a `.docx` input is rejected as unsupported by the
pipeline entry point (with a valid key and a healthy environment), refuting
"a .docx input is never rejected as unsupported" — `read_docx` exists in
the source but is never called. -/
theorem process_document_docx_unsupported :
    (process_document envOk pathDocx none).1 = .unsupported dotDocx := by decide

/-- C4 amended: with a valid key, the entry point avoids the
unsupported-format outcome exactly when the lowercased extension is `.xlsx`
or `.csv`; every other extension — including `.docx` — is rejected as
unsupported. -/
theorem process_document_supported_iff (env : Env) (path : Str) (player : Option Str)
    (hkey : env.keyValid = true) :
    (∀ e, (process_document env path player).1 ≠ .unsupported e) ↔
      (pyLower (pySplitextExt path) = dotXlsx ∨ pyLower (pySplitextExt path) = dotCsv) := by
  constructor
  · intro h
    by_contra hne
    refine h (pyLower (pySplitextExt path)) ?_
    unfold process_document validate_api_key
    rw [hkey]
    simp only [Bool.not_true, Bool.false_eq_true, if_false]
    rw [if_neg hne]
  · intro hmem e
    unfold process_document validate_api_key
    rw [hkey]
    simp only [Bool.not_true, Bool.false_eq_true, if_false]
    rw [if_pos hmem]
    cases env.readTable with
    | error e2 => simp
    | ok df =>
      cases player with
      | none => simp
      | some p =>
        by_cases hp : p = []
        · simp [hp]
        · simp [hp]

/-- C4 witness. -/
theorem process_document_supported_iff_witness :
    envOk.keyValid = true ∧
    ((∀ e, (process_document envOk pathCsv (some ['A'])).1 ≠ .unsupported e) ↔
      (pyLower (pySplitextExt pathCsv) = dotXlsx ∨ pyLower (pySplitextExt pathCsv) = dotCsv)) :=
  ⟨rfl, process_document_supported_iff envOk pathCsv (some ['A']) rfl⟩

theorem dropWhile_append_allSat {p : Char → Bool} {l1 : Str} (l2 : Str)
    (h : ∀ a ∈ l1, p a = true) : (l1 ++ l2).dropWhile p = l2.dropWhile p := by
  induction l1 with
  | nil => rfl
  | cons c rest ih =>
    rw [List.cons_append, List.dropWhile_cons, if_pos (h c (by simp))]
    exact ih (fun a ha => h a (by simp [ha]))

theorem mem_takeWhile_sat {p : Char → Bool} {l : Str} {a : Char}
    (h : a ∈ l.takeWhile p) : p a = true := by
  induction l with
  | nil => simp [List.takeWhile] at h
  | cons c rest ih =>
    rw [List.takeWhile_cons] at h
    by_cases hp : p c
    · rw [if_pos hp] at h
      rcases List.mem_cons.mp h with h1 | h1
      · rw [h1]; exact hp
      · exact ih h1
    · rw [if_neg hp] at h
      simp at h

theorem splitWsAux_append_ws {c : Char} (hc : ws c = true) (a b cur : Str) :
    splitWsAux (a ++ c :: b) cur = splitWsAux a cur ++ splitWsAux b [] := by
  induction a generalizing cur with
  | nil =>
    simp only [List.nil_append, splitWsAux, hc, if_true]
    by_cases hcur : cur = []
    · rw [if_pos hcur, hcur]
      simp [splitWsAux]
    · rw [if_neg hcur, if_neg hcur]
      simp [splitWsAux]
  | cons x a ih =>
    simp only [List.cons_append, splitWsAux]
    by_cases hx : ws x
    · rw [if_pos hx, if_pos hx]
      by_cases hcur : cur = []
      · rw [if_pos hcur, if_pos hcur]
        exact ih []
      · rw [if_neg hcur, if_neg hcur]
        exact congrArg (List.cons cur.reverse) (ih [])
    · rw [if_neg hx, if_neg hx]
      exact ih (x :: cur)

theorem wordTokens_append_ws {c : Char} (hc : ws c = true) (a b : Str) :
    wordTokens (a ++ c :: b) = wordTokens a + wordTokens b := by
  unfold wordTokens pySplitWs
  rw [splitWsAux_append_ws hc a b [], List.length_append]

theorem splitWsAux_allWs {u : Str} (h : ∀ c ∈ u, ws c = true) :
    splitWsAux u [] = [] := by
  induction u with
  | nil => rfl
  | cons c rest ih =>
    simp only [splitWsAux, h c (by simp), if_true, if_pos rfl]
    exact ih (fun a ha => h a (by simp [ha]))

theorem splitWsAux_trailing {u : Str} (h : ∀ c ∈ u, ws c = true) (t cur : Str) :
    splitWsAux (t ++ u) cur = splitWsAux t cur := by
  induction t generalizing cur with
  | nil =>
    simp only [List.nil_append]
    induction u with
    | nil => rfl
    | cons c rest ih2 =>
      simp only [splitWsAux, h c (by simp), if_true]
      have hrest : ∀ a ∈ rest, ws a = true := fun a ha => h a (by simp [ha])
      by_cases hcur : cur = []
      · rw [if_pos hcur, hcur]
        rw [splitWsAux_allWs hrest]
        simp [splitWsAux]
      · rw [if_neg hcur]
        rw [splitWsAux_allWs hrest]
        simp [splitWsAux, hcur]
  | cons x t ih =>
    simp only [List.cons_append, splitWsAux]
    by_cases hx : ws x
    · rw [if_pos hx, if_pos hx]
      by_cases hcur : cur = []
      · rw [if_pos hcur, if_pos hcur]
        exact ih []
      · rw [if_neg hcur, if_neg hcur]
        exact congrArg (List.cons cur.reverse) (ih [])
    · rw [if_neg hx, if_neg hx]
      exact ih (x :: cur)

theorem stripEnd_decomp (y : Str) :
    y = stripEnd y ++ (y.reverse.takeWhile ws).reverse ∧
    (∀ c ∈ (y.reverse.takeWhile ws).reverse, ws c = true) := by
  constructor
  · conv_lhs => rw [← List.reverse_reverse y, ← List.takeWhile_append_dropWhile (p := ws) (l := y.reverse)]
    rw [List.reverse_append]
    rfl
  · intro c hc
    rw [List.mem_reverse] at hc
    exact mem_takeWhile_sat hc

theorem wordTokens_stripEnd (y : Str) : wordTokens (stripEnd y) = wordTokens y := by
  obtain ⟨hdec, hws⟩ := stripEnd_decomp y
  conv_rhs => rw [hdec]
  unfold wordTokens pySplitWs
  rw [splitWsAux_trailing hws]

theorem splitWsAux_dropWhile (s : Str) :
    splitWsAux (s.dropWhile ws) [] = splitWsAux s [] := by
  induction s with
  | nil => rfl
  | cons c rest ih =>
    rw [List.dropWhile_cons]
    by_cases hc : ws c
    · rw [if_pos hc, ih]
      simp [splitWsAux, hc]
    · rw [if_neg hc]

theorem wordTokens_strip (s : Str) : wordTokens (pyStrip s) = wordTokens s := by
  unfold pyStrip
  rw [wordTokens_stripEnd]
  unfold wordTokens pySplitWs
  rw [splitWsAux_dropWhile]

theorem pySplitWs_mem {s w : Str} (h : w ∈ pySplitWs s) :
    w ≠ [] ∧ ∀ c ∈ w, ws c = false := by
  suffices haux : ∀ (t cur : Str), (∀ c ∈ cur, ws c = false) →
      ∀ w ∈ splitWsAux t cur, w ≠ [] ∧ ∀ c ∈ w, ws c = false by
    exact haux s [] (by simp) w h
  intro t
  induction t with
  | nil =>
    intro cur hcur w hw
    simp only [splitWsAux] at hw
    by_cases hc : cur = []
    · rw [if_pos hc] at hw
      simp at hw
    · rw [if_neg hc] at hw
      simp only [List.mem_singleton] at hw
      subst hw
      refine ⟨by simpa using hc, ?_⟩
      intro c hcw
      exact hcur c (List.mem_reverse.mp hcw)
  | cons x t ih =>
    intro cur hcur w hw
    simp only [splitWsAux] at hw
    by_cases hx : ws x
    · rw [if_pos hx] at hw
      by_cases hc : cur = []
      · rw [if_pos hc] at hw
        exact ih [] (by simp) w hw
      · rw [if_neg hc] at hw
        rcases List.mem_cons.mp hw with h1 | h1
        · subst h1
          refine ⟨by simpa using hc, ?_⟩
          intro c hcw
          exact hcur c (List.mem_reverse.mp hcw)
        · exact ih [] (by simp) w h1
    · rw [if_neg hx] at hw
      refine ih (x :: cur) ?_ w hw
      intro c hcx
      rcases List.mem_cons.mp hcx with h1 | h1
      · subst h1
        simpa using hx
      · exact hcur c h1

theorem wordTokens_single_word {w : Str} (hne : w ≠ [])
    (h : ∀ c ∈ w, ws c = false) : wordTokens w = 1 := by
  suffices haux : ∀ (t cur : Str), (∀ c ∈ t, ws c = false) → (t = [] → cur ≠ []) →
      (splitWsAux t cur).length = 1 by
    cases w with
    | nil => exact absurd rfl hne
    | cons c rest =>
      unfold wordTokens pySplitWs
      refine haux (c :: rest) [] h (by simp)
  intro t
  induction t with
  | nil =>
    intro cur _ hcur
    simp only [splitWsAux, if_neg (hcur rfl)]
    rfl
  | cons x t ih =>
    intro cur hx hcur
    have hxf : ws x = false := hx x (by simp)
    simp only [splitWsAux, hxf]
    simp only [Bool.false_eq_true, if_false]
    refine ih (x :: cur) (fun c hc => hx c (by simp [hc])) (by simp)

theorem wordTokens_nil : wordTokens [] = 0 := rfl

theorem ws_newline : ws '\n' = true := rfl

theorem wordSplitLoop_bound {mx : Nat} (hmx : 2 ≤ mx) :
    ∀ (words : List Str) (temp : Str) (acc : List Str),
      (∀ w ∈ words, w ≠ [] ∧ ∀ c ∈ w, ws c = false) →
      wordTokens temp < mx →
      (∀ ch ∈ acc, wordTokens ch < mx) →
      (∀ ch ∈ (wordSplitLoop wordTokens mx words temp acc).1, wordTokens ch < mx) ∧
      wordTokens (wordSplitLoop wordTokens mx words temp acc).2 < mx := by
  intro words
  induction words with
  | nil =>
    intro temp acc _ htemp hacc
    exact ⟨hacc, htemp⟩
  | cons w rest ih =>
    intro temp acc hwords htemp hacc
    have hw := hwords w (by simp)
    have hw1 : wordTokens w = 1 := wordTokens_single_word hw.1 hw.2
    have hrest : ∀ x ∈ rest, x ≠ [] ∧ ∀ c ∈ x, ws c = false :=
      fun x hx => hwords x (by simp [hx])
    unfold wordSplitLoop
    by_cases hguard : wordTokens (temp ++ ' ' :: w) < mx
    · rw [if_pos hguard]
      exact ih (temp ++ ' ' :: w) acc hrest hguard hacc
    · rw [if_neg hguard]
      refine ih w (acc ++ [pyStrip temp]) hrest (by omega) ?_
      intro ch hch
      rcases List.mem_append.mp hch with h1 | h1
      · exact hacc ch h1
      · rw [List.mem_singleton] at h1
        subst h1
        rw [wordTokens_strip]
        exact htemp

theorem chunkFold_word_bound {mx : Nat} (hmx : 2 ≤ mx) :
    ∀ (ps : List Str) (st : ChunkState),
      (∀ p ∈ ps, wordTokens p ≠ mx) →
      (wordTokens st.current = st.tokens ∧ st.tokens < mx ∧
        ∀ ch ∈ st.chunks, wordTokens ch < mx) →
      (wordTokens (ps.foldl (procPara wordTokens mx) st).current =
        (ps.foldl (procPara wordTokens mx) st).tokens ∧
       (ps.foldl (procPara wordTokens mx) st).tokens < mx ∧
       ∀ ch ∈ (ps.foldl (procPara wordTokens mx) st).chunks, wordTokens ch < mx) := by
  intro ps
  induction ps with
  | nil =>
    intro st _ hst
    exact hst
  | cons p rest ih =>
    intro st hps hst
    rw [List.foldl_cons]
    refine ih _ (fun q hq => hps q (by simp [hq])) ?_
    obtain ⟨hcur, htok, hchunks⟩ := hst
    have hpne : wordTokens p ≠ mx := hps p (by simp)
    simp only [procPara]
    by_cases hfall : mx < wordTokens p
    · rw [if_pos hfall]
      have hloop := wordSplitLoop_bound hmx (pySplitWs p) [] st.chunks
        (fun w hw => pySplitWs_mem hw) (by rw [wordTokens_nil]; omega) hchunks
      refine ⟨hcur, htok, ?_⟩
      intro ch hch
      by_cases hr : (wordSplitLoop wordTokens mx (pySplitWs p) [] st.chunks).2 = []
      · rw [if_pos hr] at hch
        exact hloop.1 ch hch
      · rw [if_neg hr] at hch
        rcases List.mem_append.mp hch with h1 | h1
        · exact hloop.1 ch h1
        · rw [List.mem_singleton] at h1
          subst h1
          rw [wordTokens_strip]
          exact hloop.2
    · rw [if_neg hfall]
      have hplt : wordTokens p < mx := by omega
      by_cases hacc : st.tokens + wordTokens p < mx
      · rw [if_pos hacc]
        refine ⟨?_, hacc, hchunks⟩
        rw [wordTokens_append_ws ws_newline, hcur]
      · rw [if_neg hacc]
        refine ⟨rfl, hplt, ?_⟩
        intro ch hch
        rcases List.mem_append.mp hch with h1 | h1
        · exact hchunks ch h1
        · rw [List.mem_singleton] at h1
          subst h1
          rw [wordTokens_strip, hcur]
          exact htok

/-- C1 counterexample: with the word-count stub tokenizer, the input
`"a b"` and `max_tokens = 2` produce the chunk `"a b"` itself, whose token
count is 2, not strictly below `max_tokens` (the line's token count equals
`max_tokens`, so it bypasses the word-level fallback, the running chunk is
flushed empty, and the whole line is emitted as one chunk). -/
theorem chunk_token_bound_fails :
    ¬(∀ ch ∈ chunk_content wordTokens ['a', ' ', 'b'] 2, wordTokens ch < 2) := by decide

/-- C1 amended: under the word-count stub tokenizer, with `max_tokens ≥ 2`
and no input line whose token count is exactly `max_tokens`, every chunk
emitted by `chunk_content` has `token_count < max_tokens` (lines above the
budget are word-split under the same strict threshold); the strict bound
fails in general exactly at the boundary the counterexample exhibits. -/
theorem chunk_token_bound (text : Str) (mx : Nat) (hmx : 2 ≤ mx)
    (hlines : ∀ p ∈ pySplitLines text, wordTokens p ≠ mx) :
    ∀ ch ∈ chunk_content wordTokens text mx, wordTokens ch < mx := by
  intro ch hch
  have hinv := chunkFold_word_bound hmx (pySplitLines text) ⟨[], [], 0⟩ hlines
    ⟨rfl, show (0 : Nat) < mx by omega, by simp⟩
  simp only [chunk_content] at hch
  obtain ⟨hcur, htok, hchunks⟩ := hinv
  by_cases hc : ((pySplitLines text).foldl (procPara wordTokens mx) ⟨[], [], 0⟩).current = []
  · rw [if_pos hc] at hch
    exact hchunks ch hch
  · rw [if_neg hc] at hch
    rcases List.mem_append.mp hch with h1 | h1
    · exact hchunks ch h1
    · rw [List.mem_singleton] at h1
      subst h1
      rw [wordTokens_strip, hcur]
      exact htok

/-- C1 witness. -/
theorem chunk_token_bound_witness :
    (2 ≤ 3 ∧ ∀ p ∈ pySplitLines ['a', ' ', 'b', '\n', 'c', ' ', 'd', ' ', 'e', ' ', 'f'],
        wordTokens p ≠ 3) ∧
    ∀ ch ∈ chunk_content wordTokens ['a', ' ', 'b', '\n', 'c', ' ', 'd', ' ', 'e', ' ', 'f'] 3,
      wordTokens ch < 3 :=
  ⟨⟨by omega, by decide⟩,
    chunk_token_bound ['a', ' ', 'b', '\n', 'c', ' ', 'd', ' ', 'e', ' ', 'f'] 3
      (by omega) (by decide)⟩

theorem lines_ne_nil (s : Str) : pySplitLines s ≠ [] := by
  cases s with
  | nil => simp [pySplitLines]
  | cons c rest =>
    unfold pySplitLines
    by_cases hc : c = '\n'
    · rw [if_pos hc]
      simp
    · rw [if_neg hc]
      simp

theorem lines_headI_tail (s : Str) :
    (pySplitLines s).headI :: (pySplitLines s).tail = pySplitLines s := by
  cases hl : pySplitLines s with
  | nil => exact absurd hl (lines_ne_nil s)
  | cons a t => rfl

theorem lines_cons_nl (s : Str) : pySplitLines ('\n' :: s) = [] :: pySplitLines s := by
  conv_lhs => unfold pySplitLines
  rw [if_pos rfl]

theorem lines_cons_other {c : Char} (hc : c ≠ '\n') (s : Str) :
    pySplitLines (c :: s) = (c :: (pySplitLines s).headI) :: (pySplitLines s).tail := by
  conv_lhs => unfold pySplitLines
  rw [if_neg hc]

theorem lines_append (a b : Str) :
    pySplitLines (a ++ '\n' :: b) = pySplitLines a ++ pySplitLines b := by
  induction a with
  | nil =>
    rw [List.nil_append, lines_cons_nl]
    rfl
  | cons c a ih =>
    by_cases hc : c = '\n'
    · subst hc
      rw [List.cons_append, lines_cons_nl, lines_cons_nl, ih]
      rfl
    · rw [List.cons_append, lines_cons_other hc, lines_cons_other hc, ih]
      cases hl : pySplitLines a with
      | nil => exact absurd hl (lines_ne_nil a)
      | cons l ls => simp

theorem noNl_lines {s : Str} (h : ∀ c ∈ s, c ≠ '\n') : pySplitLines s = [s] := by
  induction s with
  | nil => rfl
  | cons c rest ih =>
    rw [lines_cons_other (h c (by simp)), ih (fun d hd => h d (by simp [hd]))]
    rfl

theorem joinNL_lines (s : Str) : joinNL (pySplitLines s) = s := by
  induction s with
  | nil => rfl
  | cons c rest ih =>
    by_cases hc : c = '\n'
    · subst hc
      rw [lines_cons_nl]
      cases hl : pySplitLines rest with
      | nil => exact absurd hl (lines_ne_nil rest)
      | cons l ls =>
        show joinNL ([] :: l :: ls) = '\n' :: rest
        unfold joinNL
        rw [List.nil_append, show joinNL (l :: ls) = rest from hl ▸ ih]
    · rw [lines_cons_other hc]
      cases hl : pySplitLines rest with
      | nil => exact absurd hl (lines_ne_nil rest)
      | cons l ls =>
        cases ls with
        | nil =>
          show joinNL [c :: l] = c :: rest
          unfold joinNL
          have : joinNL [l] = rest := hl ▸ ih
          unfold joinNL at this
          rw [this]
        | cons l2 ls2 =>
          show joinNL ((c :: l) :: l2 :: ls2) = c :: rest
          have : joinNL (l :: l2 :: ls2) = rest := hl ▸ ih
          unfold joinNL at this ⊢
          rw [← this]
          rfl

theorem dropWhile_append_left {p : Char → Bool} {a : Str} (b : Str)
    (h : a.dropWhile p ≠ []) : (a ++ b).dropWhile p = a.dropWhile p ++ b := by
  induction a with
  | nil => exact absurd rfl h
  | cons c rest ih =>
    rw [List.cons_append, List.dropWhile_cons, List.dropWhile_cons]
    by_cases hc : p c
    · rw [if_pos hc, if_pos hc]
      rw [List.dropWhile_cons, if_pos hc] at h
      exact ih h
    · rw [if_neg hc, if_neg hc, List.cons_append]

theorem stripEnd_append_allWs {u : Str} (h : ∀ c ∈ u, ws c = true) (y : Str) :
    stripEnd (y ++ u) = stripEnd y := by
  unfold stripEnd
  rw [List.reverse_append, dropWhile_append_allSat y.reverse
    (fun a ha => h a (List.mem_reverse.mp ha))]

theorem pyStrip_append_allWs {u : Str} (h : ∀ c ∈ u, ws c = true) (x : Str) :
    pyStrip (x ++ u) = pyStrip x := by
  unfold pyStrip
  by_cases hx : x.dropWhile ws = []
  · have hxws : ∀ c ∈ x, ws c = true := List.dropWhile_eq_nil_iff.mp hx
    have hxu : (x ++ u).dropWhile ws = [] := by
      rw [List.dropWhile_eq_nil_iff]
      intro c hc
      rcases List.mem_append.mp hc with h1 | h1
      · exact hxws c h1
      · exact h c h1
    rw [hx, hxu]
  · rw [dropWhile_append_left u hx, stripEnd_append_allWs h]

theorem pyStrip_cons_ws {c : Char} (hc : ws c = true) (s : Str) :
    pyStrip (c :: s) = pyStrip s := by
  unfold pyStrip
  rw [List.dropWhile_cons, if_pos hc]

theorem pyStrip_decomp (s : Str) :
    ∃ u v, s = u ++ pyStrip s ++ v ∧ (∀ c ∈ u, ws c = true) ∧ (∀ c ∈ v, ws c = true) := by
  obtain ⟨hdec, hws⟩ := stripEnd_decomp (s.dropWhile ws)
  refine ⟨s.takeWhile ws, ((s.dropWhile ws).reverse.takeWhile ws).reverse, ?_, ?_, hws⟩
  · conv_lhs => rw [← List.takeWhile_append_dropWhile ws s]
    rw [List.append_assoc]
    exact congrArg (s.takeWhile ws ++ ·) hdec
  · intro c hc
    exact mem_takeWhile_sat hc

theorem pyStrip_nil_iff (s : Str) : pyStrip s = [] ↔ ∀ c ∈ s, ws c = true := by
  constructor
  · intro h c hc
    obtain ⟨u, v, hdec, hu, hv⟩ := pyStrip_decomp s
    rw [hdec, h] at hc
    rcases List.mem_append.mp hc with h1 | h1
    · rcases List.mem_append.mp h1 with h2 | h2
      · exact hu c h2
      · simp at h2
    · exact hv c h1
  · intro h
    unfold pyStrip
    rw [List.dropWhile_eq_nil_iff.mpr h]
    rfl

theorem contentLines_nil : contentLines [] = [] := rfl

theorem contentLines_cons_ws {c : Char} (hc : ws c = true) (s : Str) :
    contentLines (c :: s) = contentLines s := by
  by_cases hn : c = '\n'
  · subst hn
    unfold contentLines
    rw [lines_cons_nl]
    rfl
  · unfold contentLines
    rw [lines_cons_other hn]
    cases hl : pySplitLines s with
    | nil => exact absurd hl (lines_ne_nil s)
    | cons l ls =>
      simp [pyStrip_cons_ws hc]

theorem contentLines_append_nl (a b : Str) :
    contentLines (a ++ '\n' :: b) = contentLines a ++ contentLines b := by
  unfold contentLines
  rw [lines_append, List.map_append, List.filter_append]

theorem contentLines_prepend_allWs {w : Str} (h : ∀ c ∈ w, ws c = true) (x : Str) :
    contentLines (w ++ x) = contentLines x := by
  induction w with
  | nil => rfl
  | cons c rest ih =>
    rw [List.cons_append, contentLines_cons_ws (h c (by simp))]
    exact ih (fun d hd => h d (by simp [hd]))

theorem contentLines_mid (x : Str) :
    ∀ p : Str, (∀ d ∈ p, d ≠ '\n') → ∀ c : Char, ws c = true →
      contentLines (p ++ x ++ [c]) = contentLines (p ++ x) := by
  induction x with
  | nil =>
    intro p hp c hc
    rw [List.append_nil]
    by_cases hn : c = '\n'
    · subst hn
      rw [show p ++ ['\n'] = p ++ '\n' :: ([] : Str) from rfl, contentLines_append_nl,
        contentLines_nil, List.append_nil]
    · have hpc : ∀ d ∈ p ++ [c], d ≠ '\n' := by
        intro d hd
        rcases List.mem_append.mp hd with h1 | h1
        · exact hp d h1
        · rw [List.mem_singleton] at h1
          subst h1
          exact hn
      unfold contentLines
      rw [noNl_lines hpc, noNl_lines hp]
      simp only [List.map_cons, List.map_nil]
      rw [pyStrip_append_allWs (by intro d hd; rw [List.mem_singleton] at hd; subst hd; exact hc) p]
  | cons a x ih =>
    intro p hp c hc
    by_cases hn : a = '\n'
    · subst hn
      rw [show p ++ '\n' :: x ++ [c] = p ++ '\n' :: (x ++ [c]) from by simp,
        contentLines_append_nl, show (p : Str) ++ '\n' :: x = p ++ '\n' :: x from rfl,
        contentLines_append_nl]
      have := ih [] (by simp) c hc
      simp only [List.nil_append] at this
      rw [this]
    · have h1 : p ++ a :: x ++ [c] = (p ++ [a]) ++ x ++ [c] := by simp
      have h2 : p ++ a :: x = (p ++ [a]) ++ x := by simp
      rw [h1, h2]
      refine ih (p ++ [a]) ?_ c hc
      intro d hd
      rcases List.mem_append.mp hd with h3 | h3
      · exact hp d h3
      · rw [List.mem_singleton] at h3
        subst h3
        exact hn

theorem contentLines_append_allWs {u : Str} (h : ∀ c ∈ u, ws c = true) (t : Str) :
    contentLines (t ++ u) = contentLines t := by
  induction u generalizing t with
  | nil => rw [List.append_nil]
  | cons c rest ih =>
    have hstep : contentLines (t ++ [c]) = contentLines t := by
      have := contentLines_mid t [] (by simp) c (h c (by simp))
      simpa using this
    rw [show t ++ c :: rest = (t ++ [c]) ++ rest from by simp,
      ih (fun d hd => h d (by simp [hd])), hstep]

theorem contentLines_strip (s : Str) : contentLines (pyStrip s) = contentLines s := by
  obtain ⟨u, v, hdec, hu, hv⟩ := pyStrip_decomp s
  conv_rhs => rw [hdec]
  rw [List.append_assoc, contentLines_prepend_allWs hu, contentLines_append_allWs hv]

theorem joinNL_contentLines (L : List Str) :
    contentLines (joinNL L) = (L.map contentLines).flatten := by
  induction L with
  | nil => rfl
  | cons c cs ih =>
    cases cs with
    | nil => simp [joinNL]
    | cons c2 cs2 =>
      rw [show joinNL (c :: c2 :: cs2) = c ++ '\n' :: joinNL (c2 :: cs2) from rfl,
        contentLines_append_nl, ih]
      simp

theorem chunkFold_content (tc : Str → Nat) (mx : Nat) :
    ∀ (ps : List Str) (st : ChunkState), (∀ p ∈ ps, tc p < mx) →
      stContent (ps.foldl (procPara tc mx) st) =
        stContent st ++ (ps.map contentLines).flatten := by
  intro ps
  induction ps with
  | nil =>
    intro st _
    simp
  | cons p rest ih =>
    intro st hps
    rw [List.foldl_cons, ih (procPara tc mx st p) (fun q hq => hps q (by simp [hq]))]
    have hp : tc p < mx := hps p (by simp)
    have hstep : stContent (procPara tc mx st p) = stContent st ++ contentLines p := by
      simp only [procPara]
      rw [if_neg (by omega)]
      by_cases hacc : st.tokens + tc p < mx
      · rw [if_pos hacc]
        unfold stContent
        rw [contentLines_append_nl]
        simp [List.append_assoc]
      · rw [if_neg hacc]
        unfold stContent
        simp [contentLines_strip, List.append_assoc]
    rw [hstep]
    simp [List.append_assoc]

/-- C6 counterexample: with the character-count stub tokenizer, the input
`"x\nAAAA\ny"` and `max_tokens = 3` produce the chunks
`["", "AAAA", "x\ny"]`: the word-level fallback emits its pieces while the
surrounding accumulation is still pending, so joining the chunks yields the
lines in the order `"", "AAAA", "x", "y"` — not the input's
`"x", "AAAA", "y"` even after trimming every line. -/
theorem chunk_join_reorders :
    (pySplitLines (joinNL (chunk_content charTokens
        ['x', '\n', 'A', 'A', 'A', 'A', '\n', 'y'] 3))).map pyStrip ≠
      (pySplitLines ['x', '\n', 'A', 'A', 'A', 'A', '\n', 'y']).map pyStrip := by decide

/-- C6 amended: whenever every input line's token count is strictly below
`max_tokens` (so the reordering word-level fallback never fires — any
tokenizer), joining all emitted chunks with newlines reproduces the input's
sequence of trimmed nonblank lines exactly; blank lines may still be
dropped at chunk edges, because each chunk is flushed through `strip()`. -/
theorem chunk_join_lossless (tc : Str → Nat) (text : Str) (mx : Nat)
    (hlines : ∀ p ∈ pySplitLines text, tc p < mx) :
    contentLines (joinNL (chunk_content tc text mx)) = contentLines text := by
  have hfold := chunkFold_content tc mx (pySplitLines text) ⟨[], [], 0⟩ hlines
  have hinit : stContent ⟨[], [], 0⟩ = [] := rfl
  rw [hinit, List.nil_append] at hfold
  have htext : contentLines text = ((pySplitLines text).map contentLines).flatten := by
    conv_lhs => rw [← joinNL_lines text]
    exact joinNL_contentLines (pySplitLines text)
  rw [htext, ← hfold]
  simp only [chunk_content]
  by_cases hc : ((pySplitLines text).foldl (procPara tc mx) ⟨[], [], 0⟩).current = []
  · rw [if_pos hc, joinNL_contentLines]
    unfold stContent
    rw [hc, contentLines_nil, List.append_nil]
  · rw [if_neg hc, joinNL_contentLines]
    unfold stContent
    simp [contentLines_strip]

/-- C6 witness. -/
theorem chunk_join_lossless_witness :
    (∀ p ∈ pySplitLines ['a', 'b', '\n', ' ', '\n', 'c', 'd'], charTokens p < 3) ∧
    contentLines (joinNL (chunk_content charTokens ['a', 'b', '\n', ' ', '\n', 'c', 'd'] 3)) =
      contentLines ['a', 'b', '\n', ' ', '\n', 'c', 'd'] :=
  ⟨by decide, chunk_join_lossless charTokens ['a', 'b', '\n', ' ', '\n', 'c', 'd'] 3 (by decide)⟩

theorem chunkFold_nonempty (tc : Str → Nat) (mx : Nat) :
    ∀ (ps : List Str) (st : ChunkState),
      (∀ p ∈ ps, tc p < mx ∧ pyStrip p ≠ []) →
      ((∀ ch ∈ st.chunks, ch ≠ []) ∧ (st.current = [] → st.tokens = 0) ∧
        (st.current ≠ [] → pyStrip st.current ≠ [])) →
      ((∀ ch ∈ (ps.foldl (procPara tc mx) st).chunks, ch ≠ []) ∧
       ((ps.foldl (procPara tc mx) st).current = [] →
         (ps.foldl (procPara tc mx) st).tokens = 0) ∧
       ((ps.foldl (procPara tc mx) st).current ≠ [] →
         pyStrip (ps.foldl (procPara tc mx) st).current ≠ [])) := by
  intro ps
  induction ps with
  | nil =>
    intro st _ hst
    exact hst
  | cons p rest ih =>
    intro st hps hst
    rw [List.foldl_cons]
    refine ih _ (fun q hq => hps q (by simp [hq])) ?_
    obtain ⟨hchunks, htok0, hcur⟩ := hst
    obtain ⟨hp, hpstrip⟩ := hps p (by simp)
    have hpne : p ≠ [] := by
      intro hn
      subst hn
      exact hpstrip (by rfl)
    simp only [procPara]
    rw [if_neg (by omega)]
    by_cases hacc : st.tokens + tc p < mx
    · rw [if_pos hacc]
      refine ⟨hchunks, by simp, ?_⟩
      intro _ hstripnil
      rw [pyStrip_nil_iff] at hstripnil
      refine hpstrip (by rw [pyStrip_nil_iff]; intro c hcp; exact hstripnil c (by simp [hcp]))
    · rw [if_neg hacc]
      have hcne : st.current ≠ [] := by
        intro hn
        have := htok0 hn
        omega
      refine ⟨?_, by simp [hpne], fun _ => hpstrip⟩
      intro ch hch
      rcases List.mem_append.mp hch with h1 | h1
      · exact hchunks ch h1
      · rw [List.mem_singleton] at h1
        subst h1
        exact hcur hcne

/-- C7 counterexample: with the character-count stub tokenizer, the input
`"ab"` and `max_tokens = 2` make `chunk_content` return `["", "ab"]` — the
running chunk is flushed while still empty, so an empty chunk is emitted. -/
theorem chunk_emits_empty :
    ([] : Str) ∈ chunk_content charTokens ['a', 'b'] 2 := by decide

/-- C7 amended: provided every input line has token count strictly below
`max_tokens` and is nonblank (survives `strip()`), no chunk returned by
`chunk_content` is the empty string — any tokenizer; without those
hypotheses an empty chunk is emitted as the counterexample shows. -/
theorem chunk_no_empty (tc : Str → Nat) (text : Str) (mx : Nat)
    (hlines : ∀ p ∈ pySplitLines text, tc p < mx ∧ pyStrip p ≠ []) :
    ∀ ch ∈ chunk_content tc text mx, ch ≠ [] := by
  intro ch hch
  have hinv := chunkFold_nonempty tc mx (pySplitLines text) ⟨[], [], 0⟩ hlines
    ⟨by simp, fun _ => rfl, fun hn => absurd rfl hn⟩
  obtain ⟨hchunks, _, hcur⟩ := hinv
  simp only [chunk_content] at hch
  by_cases hc : ((pySplitLines text).foldl (procPara tc mx) ⟨[], [], 0⟩).current = []
  · rw [if_pos hc] at hch
    exact hchunks ch hch
  · rw [if_neg hc] at hch
    rcases List.mem_append.mp hch with h1 | h1
    · exact hchunks ch h1
    · rw [List.mem_singleton] at h1
      subst h1
      exact hcur hc

/-- C7 witness. -/
theorem chunk_no_empty_witness :
    (∀ p ∈ pySplitLines ['a', 'b', '\n', 'c', 'd'], charTokens p < 3 ∧ pyStrip p ≠ []) ∧
    ∀ ch ∈ chunk_content charTokens ['a', 'b', '\n', 'c', 'd'] 3, ch ≠ [] :=
  ⟨by decide, chunk_no_empty charTokens ['a', 'b', '\n', 'c', 'd'] 3 (by decide)⟩

theorem matchKV_labelLine_cons (z : Str) :
    matchKV (labelLine ++ '\n' :: z) =
      some ((['L', 'a', 'b', 'e', 'l'], ['4', '2']), '\n' :: z) := rfl

theorem findallKV_labelLines :
    ∀ n : Nat, findallKV (joinNL (List.replicate n labelLine)) =
      List.replicate n (['L', 'a', 'b', 'e', 'l'], ['4', '2']) := by
  intro n
  induction n with
  | zero => exact findallKV_nil
  | succ n ih =>
    cases n with
    | zero =>
      show findallKV labelLine = [(['L', 'a', 'b', 'e', 'l'], ['4', '2'])]
      have h0 : matchKV ('L' :: ['a', 'b', 'e', 'l', ':', ' ', '4', '2']) =
          some ((['L', 'a', 'b', 'e', 'l'], ['4', '2']), []) := rfl
      rw [show labelLine = 'L' :: ['a', 'b', 'e', 'l', ':', ' ', '4', '2'] from rfl,
        findallKV_cons_some h0, findallKV_nil]
    | succ m =>
      have hjoin : joinNL (List.replicate (m + 2) labelLine) =
          labelLine ++ '\n' :: joinNL (List.replicate (m + 1) labelLine) := by
        rw [List.replicate_succ, List.replicate_succ]
        rfl
      rw [hjoin]
      have hm := matchKV_labelLine_cons (joinNL (List.replicate (m + 1) labelLine))
      rw [show labelLine ++ '\n' :: joinNL (List.replicate (m + 1) labelLine) =
        'L' :: (['a', 'b', 'e', 'l', ':', ' ', '4', '2'] ++
          '\n' :: joinNL (List.replicate (m + 1) labelLine)) from rfl] at hm ⊢
      have hnl : matchKV ('\n' :: joinNL (List.replicate (m + 1) labelLine)) = none := rfl
      rw [findallKV_cons_some hm, findallKV_cons_none hnl, ih]
      rfl

/-- C8: on a text consisting of `n` copies of the line `"Label: 42"`,
`extract_metrics` yields exactly one record per line, each with label
`"Label"`, value exactly 42 and `is_percentage = false`. -/
theorem extract_metrics_label42 (n : Nat) :
    extract_metrics (joinNL (List.replicate n labelLine)) =
      ⟨List.replicate n 42, List.replicate n ['L', 'a', 'b', 'e', 'l'],
        List.replicate n false⟩ := by
  rw [extract_metrics, findallKV_labelLines]
  have h1 : pyFloat (stripPct ['4', '2']) = 42 := by decide
  have h2 : pyStrip ['L', 'a', 'b', 'e', 'l'] = ['L', 'a', 'b', 'e', 'l'] := by decide
  have h3 : (['L', 'a', 'b', 'e', 'l'].contains '%' || ['4', '2'].contains '%') = false := by
    decide
  simp [List.map_replicate, h1, h2, h3]
